import Mathlib

/-!
Verification of the SmartQuiz core logic: the document chunker and JSON
repair (services/geminiService), the answer-grading comparisons, the
mistake-tracking state machine (App.tsx) and the quiz-session operations
(QuizView).  JavaScript strings are modelled as `List Char`; values that
may be either numbers or strings after JSON parsing are modelled by `JVal`.
-/

namespace SmartQuiz

/-- A JavaScript string, modelled as its sequence of characters. -/
abbrev JStr := List Char

/-- A JSON-derived scalar that is either a (non-negative) number or a string.
Option indices are declared `number[]` in `types.ts`, but values coming back
from `JSON.parse` of model output or of persisted storage may be strings. -/
inductive JVal where
  | num (n : Nat)
  | str (s : String)
deriving DecidableEq, Repr

/-- JavaScript `String(v)`: a number renders as its decimal form, a string
stays itself. -/
def jvalToString : JVal → String
  | .num n => toString n
  | .str s => s

/-- Model of `new Set(xs)`: the distinct elements of `xs`.  Only `size` and
`has` of the resulting set are ever used, so a deduplicated list is a
faithful model. -/
def jsSetOf {α : Type} [DecidableEq α] (xs : List α) : List α := xs.dedup

/-- The set-comparison pattern shared by every grading site:
`correctSet.size === userSet.size` and every element of `correctSet` is in
`userSet`. -/
def isRightCheck {α : Type} [DecidableEq α] (correct user : List α) : Bool :=
  let cs := jsSetOf correct
  let us := jsSetOf user
  (cs.length == us.length) && cs.all (fun a => decide (a ∈ us))

/-- The grading comparison in `updateMistakesDatabase` (App.tsx lines
140-143): `new Set(question.correctIndices)` against `new Set(userIndices)`,
with no string coercion of the elements. -/
def isRightMistakes (correct user : List JVal) : Bool :=
  isRightCheck correct user

/-- The grading comparison of the result tally (ResultView lines 26-32), the
per-question feedback `isDraftCorrect` (QuizView lines 490-497) and the
navigator colouring (QuizView lines 679-682): both sides are mapped through
`String` before the set comparison. -/
def isRightGraded (correct user : List JVal) : Bool :=
  isRightCheck (correct.map jvalToString) (user.map jvalToString)

/-- The JS set comparison succeeds exactly when the two lists have the same
elements (as sets). -/
theorem isRightCheck_iff {α : Type} [DecidableEq α] (xs ys : List α) :
    isRightCheck xs ys = true ↔ ∀ a, a ∈ xs ↔ a ∈ ys := by
  unfold isRightCheck jsSetOf
  simp only [Bool.and_eq_true, beq_iff_eq, List.all_eq_true, decide_eq_true_eq,
    List.mem_dedup]
  constructor
  · rintro ⟨hlen, hsub⟩
    have hcard : xs.toFinset.card = ys.toFinset.card := by
      rw [List.card_toFinset, List.card_toFinset, hlen]
    have hsubset : xs.toFinset ⊆ ys.toFinset := by
      intro a ha
      rw [List.mem_toFinset] at ha ⊢
      exact hsub a ha
    have heq : xs.toFinset = ys.toFinset :=
      Finset.eq_of_subset_of_card_le hsubset (le_of_eq hcard.symm)
    intro a
    constructor
    · intro ha
      have : a ∈ xs.toFinset := List.mem_toFinset.mpr ha
      rw [heq] at this
      exact List.mem_toFinset.mp this
    · intro ha
      have : a ∈ ys.toFinset := List.mem_toFinset.mpr ha
      rw [← heq] at this
      exact List.mem_toFinset.mp this
  · intro h
    have heq : xs.toFinset = ys.toFinset := by
      ext a
      rw [List.mem_toFinset, List.mem_toFinset]
      exact h a
    constructor
    · rw [← List.card_toFinset, ← List.card_toFinset, heq]
    · intro a ha
      exact (h a).mp ha

/-- C1 counterexample: the spec's required pair — selection `[0, 1]` against
correct set `["1", "0"]` — compares equal in the string-coercing grading
sites but unequal in the mistake tracker's comparison, so the matching check
is not representation-insensitive in every grading place. -/
theorem grading_mixed_representation_ce :
    isRightMistakes [JVal.str "1", JVal.str "0"] [JVal.num 0, JVal.num 1] = false ∧
    isRightGraded [JVal.str "1", JVal.str "0"] [JVal.num 0, JVal.num 1] = true := by
  decide

/-- C1 (amended): the result tally, per-question feedback and navigator
comparisons return true iff the two index lists contain the same elements
after string coercion (order- and representation-insensitive), while the
mistake tracker's comparison returns true iff they contain the same elements
under strict equality (order-insensitive but representation-sensitive). -/
theorem grading_comparison_characterization (correct user : List JVal) :
    (isRightGraded correct user = true ↔
      ∀ s : String, s ∈ correct.map jvalToString ↔ s ∈ user.map jvalToString) ∧
    (isRightMistakes correct user = true ↔ ∀ v : JVal, v ∈ correct ↔ v ∈ user) :=
  ⟨isRightCheck_iff (correct.map jvalToString) (user.map jvalToString),
   isRightCheck_iff correct user⟩

/-! ## Text chunker (`chunkText`, services/geminiService lines 70-84) -/

/-- JS whitespace test for the characters relevant here; `s.trim()` is falsy
exactly when every character of `s` satisfies this. -/
def isWS (c : Char) : Bool := c == ' ' || c == '\t' || c == '\n' || c == '\r'

/-- The test `currentChunk.trim()` used by `chunkText`: truthy iff the string
has a non-whitespace character.  `trimEmpty s = true` means the trimmed
string is empty, i.e. the test fails. -/
def trimEmpty (s : JStr) : Bool := s.all isWS

/-- JS `text.split('\n')`. -/
def splitLines : JStr → List JStr
  | [] => [[]]
  | c :: cs =>
    match splitLines cs with
    | [] => [[c]]
    | r :: rs => if c == '\n' then [] :: r :: rs else (c :: r) :: rs

/-- The loop body of `chunkText`: for each line, if `currentChunk + line`
would exceed the budget, push `currentChunk` (unless whitespace-only) and
reset it; then append `line + "\n"`; at the end push the remaining chunk
unless whitespace-only. -/
def chunkLoop (size : Nat) : List JStr → JStr → List JStr
  | [], cur => if trimEmpty cur then [] else [cur]
  | l :: ls, cur =>
    if size < (cur ++ l).length then
      (if trimEmpty cur then [] else [cur]) ++ chunkLoop size ls (l ++ ['\n'])
    else
      chunkLoop size ls (cur ++ l ++ ['\n'])

/-- `chunkText(text, chunkSize = 12000)`. -/
def chunkText (text : JStr) (size : Nat := 12000) : List JStr :=
  chunkLoop size (splitLines text) []

/-- Concatenation of a list of lines, each terminated with a newline; this is
what `currentChunk` accumulates. -/
def joinNL (lines : List JStr) : JStr := (lines.map (fun l => l ++ ['\n'])).flatten

theorem joinNL_nil : joinNL [] = [] := rfl

theorem joinNL_append (p q : List JStr) : joinNL (p ++ q) = joinNL p ++ joinNL q := by
  simp [joinNL]

theorem joinNL_singleton (l : JStr) : joinNL [l] = l ++ ['\n'] := by
  simp [joinNL]

theorem trimEmpty_append (s t : JStr) :
    trimEmpty (s ++ t) = (trimEmpty s && trimEmpty t) := by
  simp [trimEmpty, List.all_append]

theorem trimEmpty_joinNL (p : List JStr) :
    trimEmpty (joinNL p) = p.all trimEmpty := by
  induction p with
  | nil => rfl
  | cons l p ih =>
    have : joinNL (l :: p) = (l ++ ['\n']) ++ joinNL p := by simp [joinNL]
    rw [this, trimEmpty_append, trimEmpty_append, ih, List.all_cons]
    have hnl : trimEmpty ['\n'] = true := by decide
    rw [hnl, Bool.and_true]

/-- Structure of the chunker output: the concatenation of the chunks is the
newline-terminated concatenation of a subsequence `keep` of the pending and
remaining lines, and the non-whitespace lines of `keep` are exactly those of
the input, in order. -/
theorem chunkLoop_spec (size : Nat) (ls : List JStr) :
    ∀ pend : List JStr,
      ∃ keep : List JStr, keep.Sublist (pend ++ ls) ∧
        (chunkLoop size ls (joinNL pend)).flatten = joinNL keep ∧
        keep.filter (fun l => !trimEmpty l) =
          (pend ++ ls).filter (fun l => !trimEmpty l) := by
  induction ls with
  | nil =>
    intro pend
    rw [List.append_nil]
    by_cases h : trimEmpty (joinNL pend) = true
    · have hall : ∀ l ∈ pend, trimEmpty l = true :=
        fun l hl => List.all_eq_true.mp ((trimEmpty_joinNL pend) ▸ h) l hl
      have hfil : pend.filter (fun l => !trimEmpty l) = [] := by
        rw [List.filter_eq_nil_iff]
        intro a ha
        simp [hall a ha]
      refine ⟨[], List.nil_sublist _, ?_, by simp [hfil]⟩
      rw [chunkLoop, if_pos h]
      rfl
    · refine ⟨pend, List.Sublist.refl pend, ?_, rfl⟩
      rw [chunkLoop, if_neg h]
      simp
  | cons l ls ih =>
    intro pend
    by_cases h : size < (joinNL pend ++ l).length
    · -- flush branch
      obtain ⟨keep₁, hsub₁, hjoin₁, hfil₁⟩ := ih [l]
      rw [show joinNL [l] = l ++ ['\n'] from joinNL_singleton l] at hjoin₁
      by_cases hws : trimEmpty (joinNL pend) = true
      · have hpend : pend.filter (fun l => !trimEmpty l) = [] := by
          have hall := (trimEmpty_joinNL pend) ▸ hws
          rw [List.filter_eq_nil_iff]
          intro a ha
          simp [List.all_eq_true.mp hall a ha]
        refine ⟨keep₁, ?_, ?_, ?_⟩
        · exact hsub₁.trans (List.sublist_append_right pend (l :: ls))
        · rw [chunkLoop, if_pos h, if_pos hws, List.nil_append]
          exact hjoin₁
        · rw [hfil₁, List.singleton_append, List.filter_append, hpend, List.nil_append]
      · refine ⟨pend ++ keep₁, ?_, ?_, ?_⟩
        · have := hsub₁.append_left pend
          simpa using this
        · rw [chunkLoop, if_pos h, if_neg hws]
          rw [List.flatten_append, joinNL_append, ← hjoin₁]
          simp [joinNL]
        · rw [List.filter_append, hfil₁, List.singleton_append, ← List.filter_append]
    · -- accumulate branch
      obtain ⟨keep, hsub, hjoin, hfil⟩ := ih (pend ++ [l])
      have hcur : joinNL (pend ++ [l]) = joinNL pend ++ l ++ ['\n'] := by
        rw [joinNL_append, joinNL_singleton, List.append_assoc]
      refine ⟨keep, by simpa using hsub, ?_, by simpa using hfil⟩
      rw [chunkLoop, if_neg h, ← hcur]
      exact hjoin

/-- C2 counterexample: for the whitespace-only input `" "` the chunker emits
no chunk at all, so its single line `" "` is dropped: the concatenation of
the chunks neither equals the input nor contains its line sequence. -/
theorem chunk_concat_ce :
    ¬ (splitLines [' ']).Sublist (splitLines ((chunkText [' '] 12000).flatten)) ∧
    (chunkText [' '] 12000).flatten ≠ [' '] := by
  decide

/-- C2 (amended): concatenating the chunks, in order, reproduces the input's
line sequence with every line followed by a newline, except that lines
falling in a whitespace-only chunk are dropped: there is a subsequence
`keep` of the input's lines whose newline-terminated concatenation equals
the concatenation of the chunks, and the non-whitespace-only lines of
`keep` are exactly the non-whitespace-only lines of the input, in order
(so no line is altered, reordered or invented, and only whitespace-only
lines can be dropped). -/
theorem chunk_concat_line_subsequence (text : JStr) (size : Nat) :
    ∃ keep : List JStr, keep.Sublist (splitLines text) ∧
      (chunkText text size).flatten = joinNL keep ∧
      keep.filter (fun l => !trimEmpty l) =
        (splitLines text).filter (fun l => !trimEmpty l) := by
  have h := chunkLoop_spec size (splitLines text) []
  simpa [chunkText, joinNL] using h

/-- Size bound carried by the chunker loop: provided the accumulator is
within `size + 1` or is a single over-budget line, every emitted chunk is
within `size + 1` or is a single over-budget line kept whole. -/
theorem chunkLoop_length (size : Nat) (lines0 : List JStr) :
    ∀ ls : List JStr, (∀ l ∈ ls, l ∈ lines0) → ∀ cur : JStr,
      (cur.length ≤ size + 1 ∨ ∃ l ∈ lines0, cur = l ++ ['\n'] ∧ size < l.length) →
      ∀ c ∈ chunkLoop size ls cur,
        c.length ≤ size + 1 ∨ ∃ l ∈ lines0, c = l ++ ['\n'] ∧ size < l.length := by
  intro ls
  induction ls with
  | nil =>
    intro _ cur hcur c hc
    rw [chunkLoop] at hc
    by_cases h : trimEmpty cur = true
    · simp [h] at hc
    · simp [h] at hc
      exact hc ▸ hcur
  | cons l ls ih =>
    intro hmem cur hcur c hc
    have hmem' : ∀ x ∈ ls, x ∈ lines0 := fun x hx => hmem x (List.mem_cons_of_mem l hx)
    have hl0 : l ∈ lines0 := hmem l (List.mem_cons_self l ls)
    rw [chunkLoop] at hc
    by_cases h : size < (cur ++ l).length
    · rw [if_pos h] at hc
      rcases List.mem_append.mp hc with hc1 | hc2
      · by_cases hws : trimEmpty cur = true
        · simp [hws] at hc1
        · simp [hws] at hc1
          exact hc1 ▸ hcur
      · refine ih hmem' (l ++ ['\n']) ?_ c hc2
        by_cases hlen : l.length ≤ size
        · left
          simp [hlen]
        · right
          exact ⟨l, hl0, rfl, by omega⟩
    · rw [if_neg h] at hc
      refine ih hmem' (cur ++ l ++ ['\n']) ?_ c hc
      left
      have hle : (cur ++ l).length ≤ size := by omega
      rw [List.length_append] at hle ⊢
      rw [List.length_append]
      simp only [List.length_singleton]
      omega

/-- The claim C3 as stated: every chunk fits the budget, except a chunk that
is a single input line (kept whole, with its terminating newline) whose own
length exceeds the budget. -/
abbrev chunksWithinBudget (text : JStr) (size : Nat) : Prop :=
  ∀ c ∈ chunkText text size, c.length ≤ size ∨
    ∃ l ∈ splitLines text, c = l ++ ['\n'] ∧ size < l.length

/-- C3 counterexample: for input `"a\nb"` and budget 3 the chunker emits the
single chunk `"a\nb\n"` of length 4 — over budget although both input lines
have length 1, because each appended line carries a trailing newline that the
budget test does not count. -/
theorem chunk_budget_ce : ¬ chunksWithinBudget ['a', '\n', 'b'] 3 := by
  decide

/-- C3 (amended): every chunk has length at most `budget + 1` (the budget
test ignores the newline appended after the last line of the chunk), except
that a chunk consisting of a single line whose length alone exceeds the
budget is permitted — that line is kept whole, with its terminating newline,
in its own chunk. -/
theorem chunk_budget_bound (text : JStr) (size : Nat) :
    ∀ c ∈ chunkText text size, c.length ≤ size + 1 ∨
      ∃ l ∈ splitLines text, c = l ++ ['\n'] ∧ size < l.length :=
  chunkLoop_length size (splitLines text) (splitLines text) (fun _ h => h) []
    (Or.inl (by simp))

/-- Witness for C3's amended bound at a concrete input. -/
theorem chunk_budget_bound_witness :
    (['a', '\n'] : JStr).length ≤ 10 + 1 ∨
      ∃ l ∈ splitLines ['a'], (['a', '\n'] : JStr) = l ++ ['\n'] ∧ 10 < l.length :=
  chunk_budget_bound ['a'] 10 ['a', '\n'] (by decide)

/-! ## JSON repair (`repairJSON`, services/geminiService lines 43-67) -/

/-- Outcome of a JS function call: a normal return value, or a propagated
exception.  All operations used by `repairJSON` other than `JSON.parse` are
total; `JSON.parse` is the one primitive that can throw, and its call sits
inside a `try`/`catch`. -/
inductive JSOutcome (α : Type) where
  | ok (val : α)
  | thrown
deriving DecidableEq

/-- JS `s.trim()` (restricted to the ASCII whitespace characters of `isWS`). -/
def jsTrim (s : JStr) : JStr :=
  ((s.dropWhile isWS).reverse.dropWhile isWS).reverse

/-- JS `s.replace(/^tag\s*/, "")` under the guard `s.startsWith(tag)`: drop
the tag and any whitespace after it. -/
def stripFenceHead (tag : JStr) (s : JStr) : JStr :=
  if tag.isPrefixOf s then (s.drop tag.length).dropWhile isWS else s

/-- JS `s.replace(/\s*```$/, "")`: if the string ends with the closing fence,
drop it together with the whitespace run before it; otherwise no change. -/
def stripFenceTail (s : JStr) : JStr :=
  if ("```".data).isSuffixOf s then
    ((s.take (s.length - 3)).reverse.dropWhile isWS).reverse
  else s

def indexOfCharAux : JStr → Char → Option Nat
  | [], _ => none
  | a :: tl, c => if a == c then some 0 else (indexOfCharAux tl c).map (· + 1)

/-- JS `s.indexOf(c)`: the first index of `c`, or `-1`. -/
def jsIndexOfChar (s : JStr) (c : Char) : Int :=
  match indexOfCharAux s c with
  | some i => (i : Int)
  | none => -1

def lastIndexAux (pat : JStr) : JStr → Option Nat
  | [] => if pat.isEmpty then some 0 else none
  | c :: tl =>
    match lastIndexAux pat tl with
    | some i => some (i + 1)
    | none => if pat.isPrefixOf (c :: tl) then some 0 else none

/-- JS `s.lastIndexOf(pat)`: the last index at which `pat` starts, or `-1`. -/
def jsLastIndexOf (s pat : JStr) : Int :=
  match lastIndexAux pat s with
  | some i => (i : Int)
  | none => -1

/-- `repairJSON(jsonStr)`.  `JSON.parse` is a host primitive; its success is
modelled by the oracle `parses`.  The initial `try { JSON.parse(jsonStr);
return jsonStr; } catch (e) {}` either returns the input or swallows the
exception and falls through to the repair path, whose operations are all
non-throwing. -/
def repairJSON (parses : JStr → Bool) (jsonStr : JStr) : JSOutcome JStr :=
  if parses jsonStr then .ok jsonStr
  else
    let t0 := jsTrim jsonStr
    let t1 := if ("```json".data).isPrefixOf t0 then
        stripFenceTail (stripFenceHead ("```json".data) t0) else t0
    let t2 := if ("```".data).isPrefixOf t1 then
        stripFenceTail (stripFenceHead ("```".data) t1) else t1
    let openBracket := jsIndexOfChar t2 '['
    if openBracket == -1 then .ok ("\x7b\x7d".data)
    else
      let lastComma := jsLastIndexOf t2 ("\x7d,".data)
      if openBracket < lastComma then .ok (t2.take (lastComma.toNat + 1) ++ "]\x7d".data)
      else if ("\x7d".data).isSuffixOf t2 then .ok (t2 ++ "]\x7d".data)
      else .ok t2

/-- C6: for every parse oracle and every input string — the empty string
included — `repairJSON` terminates normally with a string result; no branch
propagates an exception. -/
theorem repairJSON_never_throws (parses : JStr → Bool) (s : JStr) :
    ∃ out : JStr, repairJSON parses s = .ok out := by
  unfold repairJSON
  by_cases h0 : parses s = true
  · exact ⟨s, by rw [if_pos h0]⟩
  · rw [if_neg h0]
    dsimp only
    repeat' split
    all_goals exact ⟨_, rfl⟩

/-- C7: if the input already parses as JSON, `repairJSON` returns it
unchanged, byte for byte. -/
theorem repairJSON_identity_on_parsing (parses : JStr → Bool) (s : JStr)
    (h : parses s = true) : repairJSON parses s = .ok s := by
  unfold repairJSON
  rw [if_pos h]

/-- Witness for C7 at a concrete parsing input. -/
theorem repairJSON_identity_witness :
    repairJSON (fun _ => true) ("\x7b\x7d".data) = .ok ("\x7b\x7d".data) :=
  repairJSON_identity_on_parsing (fun _ => true) ("\x7b\x7d".data) rfl

/-! ## Question-type normalization (services/geminiService lines 191-200) -/

/-- The three question types of `types.ts` (`QuestionType.SINGLE`,
`MULTIPLE`, `JUDGMENT`). -/
inductive QuestionType where
  | single
  | multiple
  | judgment
deriving DecidableEq, Repr

/-- JS `s.toLowerCase()` (ASCII letters; other characters unchanged). -/
def toLowerCaseJ (s : JStr) : JStr := s.map Char.toLower

/-- `sub` occurs as a contiguous substring of the second argument. -/
def hasSub (sub : JStr) : JStr → Bool
  | [] => sub.isEmpty
  | c :: tl => sub.isPrefixOf (c :: tl) || hasSub sub tl

/-- JS `s.includes(sub)`. -/
def includesJS (s sub : JStr) : Bool := hasSub sub s

/-- The raw `type` field of a model-produced question: either a string or
any non-string value (a missing field included). -/
inductive RawType where
  | str (s : JStr)
  | nonString
deriving DecidableEq

/-- The normalization of the raw `type` field performed while
post-processing extracted questions: lower-case the string and test, in
order, for the multiple-choice markers, then the true-false markers,
defaulting to single choice; every non-string value maps to single choice. -/
def normalizeType (t : RawType) : QuestionType :=
  match t with
  | .nonString => .single
  | .str s =>
    let lower := toLowerCaseJ s
    if includesJS lower ("multiple".data) || includesJS lower ("check".data) ||
        includesJS lower ("多选".data) then .multiple
    else if includesJS lower ("true".data) || includesJS lower ("false".data) ||
        includesJS lower ("judgment".data) || includesJS lower ("判断".data) then .judgment
    else .single

/-- Case-insensitive substring containment, as the spec words it. -/
def includesCI (s sub : JStr) : Bool := includesJS (toLowerCaseJ s) (toLowerCaseJ sub)

/-- The mapping as the spec states it: case-insensitive substring match
against "multiple"/"check"/the multi-select localized term for
multiple-choice, then "true"/"false"/"judgment"/the true-false localized
term for true-false, anything else — non-strings included — single-choice. -/
def normalizeTypeSpec (t : RawType) : QuestionType :=
  match t with
  | .nonString => .single
  | .str s =>
    if includesCI s ("multiple".data) || includesCI s ("check".data) ||
        includesCI s ("多选".data) then .multiple
    else if includesCI s ("true".data) || includesCI s ("false".data) ||
        includesCI s ("judgment".data) || includesCI s ("判断".data) then .judgment
    else .single

/-- C8: the implemented type normalization agrees with the spec's
case-insensitive substring mapping on every raw `type` value. -/
theorem normalizeType_matches_spec (t : RawType) :
    normalizeType t = normalizeTypeSpec t := by
  cases t with
  | nonString => rfl
  | str s =>
    have h1 : toLowerCaseJ ("multiple".data) = "multiple".data := by decide
    have h2 : toLowerCaseJ ("check".data) = "check".data := by decide
    have h3 : toLowerCaseJ ("多选".data) = "多选".data := by decide
    have h4 : toLowerCaseJ ("true".data) = "true".data := by decide
    have h5 : toLowerCaseJ ("false".data) = "false".data := by decide
    have h6 : toLowerCaseJ ("judgment".data) = "judgment".data := by decide
    have h7 : toLowerCaseJ ("判断".data) = "判断".data := by decide
    simp only [normalizeType, normalizeTypeSpec, includesCI, h1, h2, h3, h4, h5, h6, h7]

/-! ## Data model (`types.ts`) and string-keyed maps -/

/-- `Question` of `types.ts`.  `correctIndices` is declared `number[]` but
runtime values may be strings after JSON parsing, hence `List JVal`. -/
structure Question where
  id : String
  text : String
  options : List String
  correctIndices : List JVal
  explanation : String
  type : QuestionType
deriving DecidableEq, Repr

structure QuizConfig where
  enableTimer : Bool
  timeLimit : Nat
  instantFeedback : Bool
deriving DecidableEq, Repr

inductive SessionStatus where
  | active
  | review
  | finished
deriving DecidableEq, Repr

/-- `QuizSession` of `types.ts`; `answers` is a string-keyed JS object
(question id to selected indices), modelled as an association list in
insertion order with unique keys. -/
structure QuizSession where
  id : String
  bankName : String
  questions : List Question
  currentQuestionIndex : Nat
  answers : List (String × List JVal)
  status : SessionStatus
  startTime : Nat
  timeRemaining : Int
  config : QuizConfig
  lastUpdated : Nat
deriving DecidableEq, Repr

/-- `MistakeRecord` of `types.ts` (`originalBankName` is always set when a
record is created by `updateMistakesDatabase`). -/
structure MistakeRecord where
  question : Question
  consecutiveCorrect : Nat
  lastReviewed : Nat
  originalBankName : String
deriving DecidableEq, Repr

/-- JS `Map.set` / object-spread update `{...m, [k]: v}`: replace the value
at an existing key in place, else append the new entry. -/
def mapSet {α : Type} (m : List (String × α)) (k : String) (v : α) :
    List (String × α) :=
  match m with
  | [] => [(k, v)]
  | p :: rest => if p.1 = k then (k, v) :: rest else p :: mapSet rest k v

/-- JS `Map.get` / object indexing: the value at the key, if present. -/
def mapGet {α : Type} (m : List (String × α)) (k : String) : Option α :=
  match m with
  | [] => none
  | p :: rest => if p.1 = k then some p.2 else mapGet rest k

/-- JS `Map.delete`. -/
def mapDelete {α : Type} (m : List (String × α)) (k : String) :
    List (String × α) :=
  m.filter (fun p => p.1 ≠ k)

theorem mapGet_mapSet {α : Type} (m : List (String × α)) (k k' : String) (v : α) :
    mapGet (mapSet m k v) k' = if k = k' then some v else mapGet m k' := by
  induction m with
  | nil => rfl
  | cons p rest ih =>
    by_cases hpk : p.1 = k
    · simp only [mapSet, if_pos hpk, mapGet]
      by_cases hkk : k = k'
      · simp [hkk]
      · simp [hkk, hpk]
    · simp only [mapSet, if_neg hpk, mapGet]
      by_cases hpk' : p.1 = k'
      · have hkk : ¬ k = k' := fun hh => hpk (hpk'.trans hh.symm)
        simp [hpk', hkk]
      · simp [hpk', ih]

theorem mem_mapSet {α : Type} (m : List (String × α)) (k : String) (v : α)
    (p : String × α) (hp : p ∈ mapSet m k v) : p = (k, v) ∨ p ∈ m := by
  induction m with
  | nil =>
    simp [mapSet] at hp
    exact Or.inl hp
  | cons q rest ih =>
    by_cases hq : q.1 = k
    · rw [mapSet, if_pos hq] at hp
      rcases List.mem_cons.mp hp with h | h
      · exact Or.inl h
      · exact Or.inr (List.mem_cons_of_mem q h)
    · rw [mapSet, if_neg hq] at hp
      rcases List.mem_cons.mp hp with h | h
      · exact Or.inr (h ▸ List.mem_cons_self q rest)
      · rcases ih h with h' | h'
        · exact Or.inl h'
        · exact Or.inr (List.mem_cons_of_mem q h')

/-! ## Mistake tracker (`updateMistakesDatabase`, App.tsx lines 126-182) -/

/-- `MASTERY_THRESHOLD` (App.tsx line 15). -/
def MASTERY_THRESHOLD : Nat := 3

/-- Mistake map keyed by question id, as built by `updateMistakesDatabase`. -/
abbrev MistakeMap := List (String × MistakeRecord)

/-- The body of the `Object.entries(finishedSession.answers).forEach` loop:
grade one answered question against the mistake map and record whether a
change was made.  `now` stands for `Date.now()`. -/
def updateStep (now : Nat) (s : QuizSession) (acc : MistakeMap × Bool)
    (e : String × List JVal) : MistakeMap × Bool :=
  match s.questions.find? (fun q => q.id == e.1) with
  | none => acc
  | some question =>
    let isRight := isRightMistakes question.correctIndices e.2
    match mapGet acc.1 e.1 with
    | some r =>
      if isRight then
        let r2 : MistakeRecord :=
          { r with consecutiveCorrect := r.consecutiveCorrect + 1, lastReviewed := now }
        if MASTERY_THRESHOLD ≤ r2.consecutiveCorrect then (mapDelete acc.1 e.1, true)
        else (mapSet acc.1 e.1 r2, true)
      else (mapSet acc.1 e.1 { r with consecutiveCorrect := 0, lastReviewed := now }, true)
    | none =>
      if isRight then acc
      else (mapSet acc.1 e.1 ⟨question, 0, now, s.bankName⟩, true)

/-- `updateMistakesDatabase(finishedSession)`: build a map from the current
records, fold the grading step over the session's answer entries, and
persist the map's values if anything changed (otherwise the stored list is
left as it was). -/
def updateMistakesDatabase (now : Nat) (mistakes : List MistakeRecord)
    (s : QuizSession) : List MistakeRecord :=
  let m0 : MistakeMap := mistakes.foldl (fun m r => mapSet m r.question.id r) []
  let res := s.answers.foldl (updateStep now s) (m0, false)
  if res.2 then res.1.map (fun p => p.2) else mistakes

/-- A single-question session scenario: question `q` answered with `ans`,
as handed to the mistake tracker when the session ends. -/
def mkSession (q : Question) (bank : String) (ans : List JVal) : QuizSession :=
  { id := "", bankName := bank, questions := [q], currentQuestionIndex := 0,
    answers := [(q.id, ans)], status := .finished, startTime := 0,
    timeRemaining := 0, config := ⟨false, 0, true⟩, lastUpdated := 0 }

/-- Step lemma: a wrong answer on an untracked question creates a record
with counter 0 for the session's bank. -/
theorem upd_absent_wrong (q : Question) (bank : String) (now : Nat) (aW : List JVal)
    (hW : isRightMistakes q.correctIndices aW = false) :
    updateMistakesDatabase now [] (mkSession q bank aW) = [⟨q, 0, now, bank⟩] := by
  simp [updateMistakesDatabase, updateStep, mkSession, mapGet, mapSet, List.find?, hW]

/-- Step lemma: a wrong answer on a tracked question resets its counter. -/
theorem upd_tracked_wrong (q : Question) (bank b' : String) (now c t : Nat) (aW : List JVal)
    (hW : isRightMistakes q.correctIndices aW = false) :
    updateMistakesDatabase now [⟨q, c, t, b'⟩] (mkSession q bank aW) = [⟨q, 0, now, b'⟩] := by
  simp [updateMistakesDatabase, updateStep, mkSession, mapGet, mapSet, List.find?, hW]

/-- Step lemma: a correct answer on an untracked question changes nothing. -/
theorem upd_absent_correct (q : Question) (bank : String) (now : Nat) (aC : List JVal)
    (hC : isRightMistakes q.correctIndices aC = true) :
    updateMistakesDatabase now [] (mkSession q bank aC) = [] := by
  simp [updateMistakesDatabase, updateStep, mkSession, mapGet, mapSet, List.find?, hC]

/-- Step lemma: a correct answer below the threshold increments the counter. -/
theorem upd_tracked_correct (q : Question) (bank b' : String) (now c t : Nat) (aC : List JVal)
    (hC : isRightMistakes q.correctIndices aC = true) (hlt : c + 1 < 3) :
    updateMistakesDatabase now [⟨q, c, t, b'⟩] (mkSession q bank aC) = [⟨q, c + 1, now, b'⟩] := by
  have hn : ¬ 2 ≤ c := by omega
  simp [updateMistakesDatabase, updateStep, mkSession, mapGet, mapSet, List.find?, hC,
    MASTERY_THRESHOLD, hn]

/-- Step lemma: the third consecutive correct answer removes the record. -/
theorem upd_tracked_correct_master (q : Question) (bank b' : String) (now t : Nat) (aC : List JVal)
    (hC : isRightMistakes q.correctIndices aC = true) :
    updateMistakesDatabase now [⟨q, 2, t, b'⟩] (mkSession q bank aC) = [] := by
  simp [updateMistakesDatabase, updateStep, mkSession, mapGet, mapSet, mapDelete, List.find?, hC,
    MASTERY_THRESHOLD]

theorem fold_wrong_fix (q : Question) (bank b' : String) (now : Nat) (aW : List JVal)
    (hW : isRightMistakes q.correctIndices aW = false) :
    ∀ n : Nat, (List.replicate n aW).foldl
        (fun ms a => updateMistakesDatabase now ms (mkSession q bank a)) [⟨q, 0, now, b'⟩]
      = [⟨q, 0, now, b'⟩] := by
  intro n
  induction n with
  | zero => rfl
  | succ n ih =>
    simp only [List.replicate_succ, List.foldl_cons]
    rw [upd_tracked_wrong q bank b' now 0 now aW hW]
    exact ih

theorem fold_wrongs (q : Question) (bank : String) (now : Nat) (aW : List JVal)
    (hW : isRightMistakes q.correctIndices aW = false) (N : Nat) :
    (List.replicate N aW).foldl
        (fun ms a => updateMistakesDatabase now ms (mkSession q bank a)) []
      = if N = 0 then [] else [⟨q, 0, now, bank⟩] := by
  cases N with
  | zero => rfl
  | succ n =>
    simp only [List.replicate_succ, List.foldl_cons]
    rw [upd_absent_wrong q bank now aW hW]
    simp [fold_wrong_fix q bank bank now aW hW n]

theorem fold_corrects_absent (q : Question) (bank : String) (now : Nat) (aC : List JVal)
    (hC : isRightMistakes q.correctIndices aC = true) (j : Nat) :
    (List.replicate j aC).foldl
        (fun ms a => updateMistakesDatabase now ms (mkSession q bank a)) []
      = [] := by
  induction j with
  | zero => rfl
  | succ n ih =>
    simp only [List.replicate_succ, List.foldl_cons]
    rw [upd_absent_correct q bank now aC hC]
    exact ih

/-- C4: over single-question sessions for `q`, answering incorrectly `N`
times and then correctly 3 times consecutively leaves `q` absent from the
mistake set; and if an incorrect answer comes after only `j < 3` consecutive
correct answers, `q` is tracked with its consecutive-correct counter reset
to 0 at that point. -/
theorem mastery_transition (q : Question) (bank : String) (now : Nat)
    (aC aW : List JVal)
    (hC : isRightMistakes q.correctIndices aC = true)
    (hW : isRightMistakes q.correctIndices aW = false)
    (N j : Nat) (hj : j < 3) :
    ((List.replicate N aW ++ List.replicate 3 aC).foldl
        (fun ms a => updateMistakesDatabase now ms (mkSession q bank a)) [] = []) ∧
    ((List.replicate N aW ++ List.replicate j aC ++ [aW]).foldl
        (fun ms a => updateMistakesDatabase now ms (mkSession q bank a)) []
      = [⟨q, 0, now, bank⟩]) := by
  have h3 : List.replicate 3 aC = [aC, aC, aC] := rfl
  constructor
  · rw [List.foldl_append, fold_wrongs q bank now aW hW N]
    by_cases hN : N = 0
    · rw [if_pos hN]
      exact fold_corrects_absent q bank now aC hC 3
    · rw [if_neg hN, h3]
      simp only [List.foldl_cons, List.foldl_nil]
      rw [upd_tracked_correct q bank bank now 0 now aC hC (by omega)]
      rw [upd_tracked_correct q bank bank now 1 now aC hC (by omega)]
      rw [upd_tracked_correct_master q bank bank now now aC hC]
  · rw [List.foldl_append, List.foldl_append, fold_wrongs q bank now aW hW N]
    by_cases hN : N = 0
    · rw [if_pos hN, fold_corrects_absent q bank now aC hC j]
      simp only [List.foldl_cons, List.foldl_nil]
      rw [upd_absent_wrong q bank now aW hW]
    · rw [if_neg hN]
      interval_cases j
      · simp only [List.replicate, List.foldl_nil, List.foldl_cons]
        rw [upd_tracked_wrong q bank bank now 0 now aW hW]
      · simp only [List.replicate, List.foldl_nil, List.foldl_cons]
        rw [upd_tracked_correct q bank bank now 0 now aC hC (by omega)]
        rw [upd_tracked_wrong q bank bank now 1 now aW hW]
      · simp only [List.replicate, List.foldl_nil, List.foldl_cons]
        rw [upd_tracked_correct q bank bank now 0 now aC hC (by omega)]
        rw [upd_tracked_correct q bank bank now 1 now aC hC (by omega)]
        rw [upd_tracked_wrong q bank bank now 2 now aW hW]

/-- A concrete single-correct-answer question used by the witnesses. -/
def sampleQ : Question :=
  { id := "q1", text := "Q", options := ["x", "y"], correctIndices := [JVal.num 0],
    explanation := "", type := .single }

/-- Witness for C4 with two wrong answers then three (resp. one) correct. -/
theorem mastery_transition_witness :
    ((List.replicate 2 [JVal.num 1] ++ List.replicate 3 [JVal.num 0]).foldl
        (fun ms a => updateMistakesDatabase 5 ms (mkSession sampleQ "bank" a)) [] = []) ∧
    ((List.replicate 2 [JVal.num 1] ++ List.replicate 1 [JVal.num 0] ++ [[JVal.num 1]]).foldl
        (fun ms a => updateMistakesDatabase 5 ms (mkSession sampleQ "bank" a)) []
      = [⟨sampleQ, 0, 5, "bank"⟩]) :=
  mastery_transition sampleQ "bank" 5 [JVal.num 0] [JVal.num 1]
    (by decide) (by decide) 2 1 (by decide)

theorem updateStep_bound (now : Nat) (s : QuizSession) (acc : MistakeMap × Bool)
    (h : ∀ p ∈ acc.1, p.2.consecutiveCorrect < MASTERY_THRESHOLD) (e : String × List JVal) :
    ∀ p ∈ (updateStep now s acc e).1, p.2.consecutiveCorrect < MASTERY_THRESHOLD := by
  intro p hp
  unfold updateStep at hp
  split at hp
  · exact h p hp
  · dsimp only at hp
    split at hp
    · split at hp
      · split at hp
        · exact h p (List.mem_of_mem_filter hp)
        · rcases mem_mapSet _ _ _ p hp with rfl | hmem
          · rename_i hthr
            simp only [MASTERY_THRESHOLD] at hthr ⊢
            omega
          · exact h p hmem
      · rcases mem_mapSet _ _ _ p hp with rfl | hmem
        · simp [MASTERY_THRESHOLD]
        · exact h p hmem
    · split at hp
      · exact h p hp
      · rcases mem_mapSet _ _ _ p hp with rfl | hmem
        · simp [MASTERY_THRESHOLD]
        · exact h p hmem

theorem build_map_bound (mistakes : List MistakeRecord)
    (h : ∀ r ∈ mistakes, r.consecutiveCorrect < MASTERY_THRESHOLD) :
    ∀ p ∈ mistakes.foldl (fun m r => mapSet m r.question.id r) [],
      p.2.consecutiveCorrect < MASTERY_THRESHOLD := by
  suffices hgen : ∀ (ms : List MistakeRecord) (acc : MistakeMap),
      (∀ r ∈ ms, r.consecutiveCorrect < MASTERY_THRESHOLD) →
      (∀ p ∈ acc, p.2.consecutiveCorrect < MASTERY_THRESHOLD) →
      ∀ p ∈ ms.foldl (fun m r => mapSet m r.question.id r) acc,
        p.2.consecutiveCorrect < MASTERY_THRESHOLD by
    exact fun p hp => hgen mistakes [] h (by simp) p hp
  intro ms
  induction ms with
  | nil => intro acc _ hacc p hp; exact hacc p hp
  | cons r ms ih =>
    intro acc hms hacc p hp
    rw [List.foldl_cons] at hp
    refine ih _ (fun r' hr' => hms r' (List.mem_cons_of_mem r hr')) ?_ p hp
    intro p' hp'
    rcases mem_mapSet _ _ _ p' hp' with rfl | hmem
    · exact hms r (List.mem_cons_self r ms)
    · exact hacc p' hmem

theorem answers_fold_bound (now : Nat) (s : QuizSession) :
    ∀ (entries : List (String × List JVal)) (acc : MistakeMap × Bool),
      (∀ p ∈ acc.1, p.2.consecutiveCorrect < MASTERY_THRESHOLD) →
      ∀ p ∈ (entries.foldl (updateStep now s) acc).1,
        p.2.consecutiveCorrect < MASTERY_THRESHOLD := by
  intro entries
  induction entries with
  | nil => intro acc h p hp; exact h p hp
  | cons e es ih =>
    intro acc h p hp
    rw [List.foldl_cons] at hp
    exact ih _ (updateStep_bound now s acc h e) p hp

/-- One application of the mistake tracker preserves the counter bound. -/
theorem updateMistakes_bound (now : Nat) (s : QuizSession) (ms : List MistakeRecord)
    (h : ∀ r ∈ ms, r.consecutiveCorrect < MASTERY_THRESHOLD) :
    ∀ r ∈ updateMistakesDatabase now ms s, r.consecutiveCorrect < MASTERY_THRESHOLD := by
  intro r hr
  unfold updateMistakesDatabase at hr
  dsimp only at hr
  split at hr
  · rcases List.mem_map.mp hr with ⟨p, hp, rfl⟩
    exact answers_fold_bound now s s.answers _ (build_map_bound ms h) p hp
  · exact h r hr

/-- C5: in every mistake-record set reached from the empty set by any
sequence of finished or exited sessions (each applied at its own time),
every stored record's consecutive-correct counter lies in `[0, 3)` — the
counter is a natural number and never reaches the mastery threshold, since
a record reaching 3 is deleted in the same update. -/
theorem mistake_counter_invariant (steps : List (Nat × QuizSession)) :
    ∀ r ∈ steps.foldl (fun ms p => updateMistakesDatabase p.1 ms p.2) [],
      r.consecutiveCorrect < MASTERY_THRESHOLD := by
  suffices hgen : ∀ (st : List (Nat × QuizSession)) (ms : List MistakeRecord),
      (∀ r ∈ ms, r.consecutiveCorrect < MASTERY_THRESHOLD) →
      ∀ r ∈ st.foldl (fun ms p => updateMistakesDatabase p.1 ms p.2) ms,
        r.consecutiveCorrect < MASTERY_THRESHOLD by
    exact fun r hr => hgen steps [] (by simp) r hr
  intro st
  induction st with
  | nil => intro ms h r hr; exact h r hr
  | cons p ps ih =>
    intro ms h r hr
    rw [List.foldl_cons] at hr
    exact ih _ (updateMistakes_bound p.1 p.2 ms h) r hr

/-- Witness for C5: the record created by one wrongly-answered session. -/
theorem mistake_counter_invariant_witness :
    (⟨sampleQ, 0, 7, "bank"⟩ : MistakeRecord).consecutiveCorrect < MASTERY_THRESHOLD :=
  mistake_counter_invariant [(7, mkSession sampleQ "bank" [JVal.num 1])]
    ⟨sampleQ, 0, 7, "bank"⟩ (by decide)

/-! ## Session operations (QuizView lines 437-497, 668-704) -/

/-- The session operations a user can perform during a quiz: selecting an
option (`handleDraftSelect`), confirming the draft answer (`confirmAnswer`),
moving on (`handleNext`), moving back (`handlePrev`) and jumping via the
navigator's index buttons. -/
inductive QuizOp where
  | select (i : Nat)
  | confirm
  | next
  | prev
  | jump (i : Nat)
deriving DecidableEq, Repr

/-- The QuizView state: the session plus the local draft selection.
`isSubmitted` is derived state — the current question has an entry in the
answer map. -/
structure QuizViewState where
  session : QuizSession
  draft : List JVal
deriving DecidableEq, Repr

/-- Navigation: move the cursor to `i`; the effect hook on question change
re-derives the draft selection from the answer map (the recorded answer for
the new question, or empty). -/
def goTo (st : QuizViewState) (i : Nat) : QuizViewState :=
  let s2 := { st.session with currentQuestionIndex := i }
  let draft2 :=
    match s2.questions.get? i with
    | some q2 => (mapGet s2.answers q2.id).getD []
    | none => []
  { session := s2, draft := draft2 }

/-- One user operation on the quiz view.  `handleDraftSelect` returns
immediately once submitted and otherwise toggles (multiple choice) or
replaces (single/judgment) the draft; `confirmAnswer` returns on an empty
draft and, its control being rendered only while the current question is
unanswered, applies only then, recording the draft in the answer map;
`handleNext` advances the cursor or, on the last question, marks the session
finished; `handlePrev` and the navigator jump move the cursor within bounds.
No navigation touches the answer map. -/
def quizStep (st : QuizViewState) (op : QuizOp) : QuizViewState :=
  match st.session.questions.get? st.session.currentQuestionIndex with
  | none => st
  | some q =>
    let isSubmitted := (mapGet st.session.answers q.id).isSome
    match op with
    | .select i =>
      if isSubmitted then st
      else if q.type = QuestionType.multiple then
        { st with draft :=
            if JVal.num i ∈ st.draft then st.draft.filter (fun v => v ≠ JVal.num i)
            else st.draft ++ [JVal.num i] }
      else { st with draft := [JVal.num i] }
    | .confirm =>
      if isSubmitted then st
      else if st.draft.length = 0 then st
      else { st with session :=
          { st.session with answers := mapSet st.session.answers q.id st.draft } }
    | .next =>
      if st.session.currentQuestionIndex < st.session.questions.length - 1 then
        goTo st (st.session.currentQuestionIndex + 1)
      else
        { st with session := { st.session with status := .finished } }
    | .prev =>
      if 0 < st.session.currentQuestionIndex then
        goTo st (st.session.currentQuestionIndex - 1)
      else st
    | .jump i =>
      if i < st.session.questions.length then goTo st i else st

/-- A single operation never changes or removes an existing answer entry. -/
theorem quizStep_preserves_answer (st : QuizViewState) (op : QuizOp) (qid : String)
    (a : List JVal) (h : mapGet st.session.answers qid = some a) :
    mapGet (quizStep st op).session.answers qid = some a := by
  unfold quizStep
  split
  · exact h
  · rename_i q heq
    cases op with
    | select i =>
      dsimp only
      split
      · exact h
      · split <;> exact h
    | confirm =>
      dsimp only
      split
      · exact h
      · split
        · exact h
        · rename_i hsub hdraft
          dsimp only
          rw [mapGet_mapSet]
          by_cases hk : q.id = qid
          · rw [hk, h] at hsub
            simp at hsub
          · rw [if_neg hk]
            exact h
    | next =>
      dsimp only
      split
      · exact h
      · exact h
    | prev =>
      dsimp only
      split
      · exact h
      · exact h
    | jump i =>
      dsimp only
      split
      · exact h
      · exact h

/-- C9: once a question has a recorded answer in the session's answer map,
no sequence of further session operations — selecting options, confirming,
or navigating by next/previous/jump — changes or removes that entry. -/
theorem answer_entry_locked (st : QuizViewState) (qid : String) (a : List JVal)
    (h : mapGet st.session.answers qid = some a) (ops : List QuizOp) :
    mapGet ((ops.foldl quizStep st).session.answers) qid = some a := by
  induction ops generalizing st with
  | nil => exact h
  | cons op ops ih => exact ih (quizStep st op) (quizStep_preserves_answer st op qid a h)

/-- A state whose single question already has a recorded answer. -/
def answeredState : QuizViewState :=
  { session :=
      { id := "s", bankName := "bank", questions := [sampleQ],
        currentQuestionIndex := 0, answers := [("q1", [JVal.num 0])],
        status := .active, startTime := 0, timeRemaining := 0,
        config := ⟨false, 0, true⟩, lastUpdated := 0 },
    draft := [JVal.num 0] }

/-- Witness for C9: selecting, confirming and navigating leave the recorded
answer of the already-answered question untouched. -/
theorem answer_entry_locked_witness :
    mapGet (([QuizOp.select 1, QuizOp.confirm, QuizOp.next].foldl quizStep
        answeredState).session.answers) "q1" = some [JVal.num 0] :=
  answer_entry_locked answeredState "q1" [JVal.num 0] rfl
    [QuizOp.select 1, QuizOp.confirm, QuizOp.next]

/-- A single operation preserves "every answer entry is non-empty". -/
theorem quizStep_nonempty (st : QuizViewState) (op : QuizOp)
    (h : ∀ p ∈ st.session.answers, p.2 ≠ []) :
    ∀ p ∈ (quizStep st op).session.answers, p.2 ≠ [] := by
  intro p hp
  unfold quizStep at hp
  split at hp
  · exact h p hp
  · rename_i q heq
    cases op with
    | select i =>
      dsimp only at hp
      split at hp
      · exact h p hp
      · split at hp <;> exact h p hp
    | confirm =>
      dsimp only at hp
      split at hp
      · exact h p hp
      · split at hp
        · exact h p hp
        · rename_i hsub hlen
          dsimp only at hp
          rcases mem_mapSet _ _ _ p hp with rfl | hmem
          · intro he
            apply hlen
            have hd : st.draft = [] := he
            rw [hd]
            rfl
          · exact h p hmem
    | next =>
      dsimp only at hp
      split at hp
      · exact h p hp
      · exact h p hp
    | prev =>
      dsimp only at hp
      split at hp
      · exact h p hp
      · exact h p hp
    | jump i =>
      dsimp only at hp
      split at hp
      · exact h p hp
      · exact h p hp

/-- C10: starting from a freshly started exam or mistake-review session
(empty answer map, as built by `startExam` and `startMistakeReview`), every
entry ever present in the answer map is a non-empty list of selected
indices: confirming with an empty draft is a no-op, so an answered question
always has at least one selected index. -/
theorem answer_entries_nonempty (st0 : QuizViewState)
    (h0 : st0.session.answers = []) (ops : List QuizOp) :
    ∀ p ∈ ((ops.foldl quizStep st0).session.answers), p.2 ≠ [] := by
  suffices hgen : ∀ (ops : List QuizOp) (st : QuizViewState),
      (∀ p ∈ st.session.answers, p.2 ≠ []) →
      ∀ p ∈ ((ops.foldl quizStep st).session.answers), p.2 ≠ [] by
    refine hgen ops st0 ?_
    rw [h0]
    intro p hp
    cases hp
  intro ops
  induction ops with
  | nil => intro st h p hp; exact h p hp
  | cons op ops ih =>
    intro st h p hp
    rw [List.foldl_cons] at hp
    exact ih (quizStep st op) (quizStep_nonempty st op h) p hp

/-- A freshly started session over `sampleQ`. -/
def freshState : QuizViewState :=
  { session :=
      { id := "s", bankName := "bank", questions := [sampleQ],
        currentQuestionIndex := 0, answers := [], status := .active,
        startTime := 0, timeRemaining := 0, config := ⟨false, 0, true⟩,
        lastUpdated := 0 },
    draft := [] }

/-- Witness for C10: the entry recorded after selecting and confirming an
option in a fresh session is non-empty. -/
theorem answer_entries_nonempty_witness :
    ("q1", [JVal.num 0]).2 ≠ ([] : List JVal) :=
  answer_entries_nonempty freshState rfl [QuizOp.select 0, QuizOp.confirm]
    ("q1", [JVal.num 0]) (by decide)

end SmartQuiz
